import Mathlib

/-!
Verification of the windowed time-weighted moving averager from `sensor.py`
(class `MovingAvg`).

Modelling conventions:
* A timestamp (`datetime`) is a point on the rational time line, measured in
  seconds; `(b - a).total_seconds()` becomes plain subtraction `b - a`.
* Sample values (`float`) are modelled as rationals; Python float division
  `x / d` becomes rational division (the only divisor, `duration`, is shown
  zero at one reachable input, see `C3` below, where Python raises
  `ZeroDivisionError`).
* The deque `self._data` is a list whose head is the oldest sample
  (`popleft` = drop the head, `appendleft` = cons, `append` = snoc).
* `round(x, p)` is Python3 rounding (round half to even) at `p`
  decimal digits; `int(x)` truncates toward zero.
* The `_name` field is only used for logging and is omitted.
-/

/-- A retained sample: `(value, timestamp)`, as built by `MovingAvg._tuple`. -/
abbrev Sample : Type := ℚ × ℚ

/-- `MovingAvg._value`. -/
def sampleValue (s : Sample) : ℚ := s.1

/-- `MovingAvg._timestamp`. -/
def sampleTs (s : Sample) : ℚ := s.2

/-- Python3 `round` to an integer: round half to even. -/
def roundHalfEven (x : ℚ) : ℤ :=
  if x - ⌊x⌋ < 1/2 then ⌊x⌋
  else if 1/2 < x - ⌊x⌋ then ⌊x⌋ + 1
  else if ⌊x⌋ % 2 = 0 then ⌊x⌋ else ⌊x⌋ + 1

/-- Python3 `round(x, p)` on our rational model of floats: round
`x * 10^p` half to even, then scale back. Works for any integer `p`. -/
def pyRound (x : ℚ) (p : ℤ) : ℚ := (roundHalfEven (x * 10 ^ p) : ℚ) / 10 ^ p

/-- Python `int(q)`: truncation toward zero. -/
def pyInt (q : ℚ) : ℤ := Int.tdiv q.num q.den

/-- Result of `MovingAvg.update` / `update_value`: Python returns
`None`, a `float`, or an `int` depending on state and precision. -/
inductive AvgResult : Type where
  | nodata : AvgResult
  | ofFloat (q : ℚ) : AvgResult
  | ofInt (z : ℤ) : AvgResult
deriving DecidableEq

/-- The averager state: window length (seconds), display precision and the
retained samples, oldest first (`MovingAvg.__init__`). -/
structure MovingAvg : Type where
  window : ℚ
  precision : ℤ
  data : List Sample
deriving DecidableEq

/-- `MovingAvg._weighted(cur, next, duration)`:
`value(cur) * (next - timestamp(cur)).total_seconds() / duration`. -/
def weighted (cur : Sample) (next : ℚ) (duration : ℚ) : ℚ :=
  sampleValue cur * (next - sampleTs cur) / duration

/-- The `while` loop in `MovingAvg.update` (lines 237-239): pop the oldest
sample while more than one remains and its timestamp is strictly before
`start`; `r` carries the last sample removed so far (`removed`). -/
def trimWhile (start : ℚ) : List Sample → Option Sample → List Sample × Option Sample
  | x :: y :: rest, r =>
    if sampleTs x < start then trimWhile start (y :: rest) (some x)
    else (x :: y :: rest, r)
  | d, r => (d, r)

/-- Lines 236-242 of `MovingAvg.update`: trim the deque to the window and,
if something was removed and the new oldest sample is strictly after
`start`, push back a synthetic sample carrying the removed value at
timestamp `start`. (The inner `[]` case is unreachable: the loop always
keeps at least one element.) -/
def moveWindow (start : ℚ) (d : List Sample) : List Sample :=
  match trimWhile start d none with
  | (d', some r) =>
    match d' with
    | hd :: tl => if start < sampleTs hd then (sampleValue r, start) :: hd :: tl else hd :: tl
    | [] => []
  | (d', none) => d'

/-- The pair walk of lines 252-258: sum `weighted prev (timestamp cur)` over
consecutive pairs of the deque. -/
def pairSum (duration : ℚ) : List Sample → ℚ
  | p :: c :: rest => weighted p (sampleTs c) duration + pairSum duration (c :: rest)
  | _ => 0

/-- Lines 259-262: after the loop `cur` is the last sample; if `timestamp`
is strictly after it, add its weighted tail segment. -/
def tailTerm (timestamp duration : ℚ) (d : List Sample) : ℚ :=
  match d.getLast? with
  | some c => if sampleTs c < timestamp then weighted c timestamp duration else 0
  | none => 0

/-- Lines 251-262: the unrounded accumulator `ret_val` for the multi-sample
branch. -/
def computeAvg (timestamp duration : ℚ) (d : List Sample) : ℚ :=
  pairSum duration d + tailTerm timestamp duration d

namespace MovingAvg

/-- `MovingAvg.update` before the final rounding (lines 226-262): returns
the mutated state and the optional unrounded `ret_val`. (When the trimmed
deque were empty -- impossible, see `moveWindow_ne_nil` -- Python would
raise `IndexError`; we return the junk value `0` there.) -/
def updateRaw (m : MovingAvg) (timestamp : ℚ) : MovingAvg × Option ℚ :=
  let size := m.data.length
  if size = 1 then (m, some (sampleValue m.data.headI))
  else if 1 < size then
    let start := timestamp - m.window
    let d := moveWindow start m.data
    let m' : MovingAvg := ⟨m.window, m.precision, d⟩
    if d.length = 1 then (m', some (sampleValue d.headI))
    else
      let duration := timestamp - sampleTs d.headI
      (m', some (computeAvg timestamp duration d))
  else (m, none)

/-- Lines 263-268 of `MovingAvg.update`: `None` stays absent; otherwise
round to `precision` digits, converting to `int` unless `precision > 0`. -/
def update (m : MovingAvg) (timestamp : ℚ) : MovingAvg × AvgResult :=
  match m.updateRaw timestamp with
  | (m', none) => (m', AvgResult.nodata)
  | (m', some v) =>
    (m', if 0 < m.precision then AvgResult.ofFloat (pyRound v m.precision)
         else AvgResult.ofInt (pyInt (pyRound v m.precision)))

/-- `MovingAvg.update_value`: append the sample, then update at its
timestamp. -/
def update_value (m : MovingAvg) (val : ℚ) (timestamp : ℚ) : MovingAvg × AvgResult :=
  update ⟨m.window, m.precision, m.data ++ [(val, timestamp)]⟩ timestamp

/-- `MovingAvg.reset`: clear the deque. -/
def reset (m : MovingAvg) : MovingAvg := ⟨m.window, m.precision, []⟩

/-- `MovingAvg.data_points`. -/
def data_points (m : MovingAvg) : ℕ := m.data.length

end MovingAvg

/-- The documented ordering invariant on the retained deque: timestamps are
non-decreasing from oldest to newest. -/
def sortedByTs (d : List Sample) : Prop :=
  d.Pairwise (fun a b => sampleTs a ≤ sampleTs b)

instance sortedByTs_decidable (d : List Sample) : Decidable (sortedByTs d) :=
  List.instDecidablePairwise d

/-! ### Structural lemmas about the trimming loop -/

theorem trimWhile_fst_ne_nil (start : ℚ) :
    ∀ (d : List Sample) (r : Option Sample), d ≠ [] → (trimWhile start d r).1 ≠ []
  | [], _, h => absurd rfl h
  | [x], _, _ => by simp [trimWhile]
  | x :: y :: rest, r, _ => by
    rw [trimWhile]
    split_ifs with h
    · exact trimWhile_fst_ne_nil start (y :: rest) (some x) (by simp)
    · simp

theorem trimWhile_suffix (start : ℚ) :
    ∀ (d : List Sample) (r : Option Sample), (trimWhile start d r).1 <:+ d
  | [], _ => List.suffix_rfl
  | [x], _ => by simp [trimWhile]
  | x :: y :: rest, r => by
    rw [trimWhile]
    split_ifs with h
    · exact (trimWhile_suffix start (y :: rest) (some x)).trans (List.suffix_cons x _)
    · exact List.suffix_rfl

theorem trimWhile_head (start : ℚ) :
    ∀ (d : List Sample) (r : Option Sample), 2 ≤ (trimWhile start d r).1.length →
      ∀ x ∈ (trimWhile start d r).1.head?, ¬ sampleTs x < start
  | [], _, h => by simp [trimWhile] at h
  | [x], _, h => by simp [trimWhile] at h
  | x :: y :: rest, r, h => by
    rw [trimWhile] at h ⊢
    split_ifs at h ⊢ with hx
    · exact trimWhile_head start (y :: rest) (some x) h
    · intro z hz
      simp only [List.head?_cons, Option.mem_def, Option.some.injEq] at hz
      exact hz ▸ hx

/-! ### Structural lemmas about `moveWindow` -/

theorem moveWindow_ne_nil (start : ℚ) (d : List Sample) (h : d ≠ []) :
    moveWindow start d ≠ [] := by
  have hne := trimWhile_fst_ne_nil start d none h
  rw [moveWindow]
  rcases htr : trimWhile start d none with ⟨d', r⟩
  rw [htr] at hne
  match r, d', hne with
  | some r, hd :: tl, _ => dsimp only; split_ifs <;> simp
  | none, d', hne => simpa using hne

theorem moveWindow_head_ok (start : ℚ) (d : List Sample)
    (h : 2 ≤ (moveWindow start d).length) :
    ∀ x ∈ (moveWindow start d).head?, ¬ sampleTs x < start := by
  rw [moveWindow] at h ⊢
  rcases htr : trimWhile start d none with ⟨d', r⟩
  have hhead := trimWhile_head start d none
  rw [htr] at hhead h
  match r, d' with
  | some r, [] => simp at h
  | some r, hd :: tl =>
    simp only at h ⊢
    split_ifs at h ⊢ with hs
    · intro z hz
      simp only [List.head?_cons, Option.mem_def, Option.some.injEq] at hz
      subst hz
      simp [sampleTs]
    · exact hhead h
  | none, d' =>
    simpa using hhead h

theorem moveWindow_tail_ge (start : ℚ) (d : List Sample) (hs : sortedByTs d) :
    ∀ x ∈ (moveWindow start d).tail, start ≤ sampleTs x := by
  rw [moveWindow]
  rcases htr : trimWhile start d none with ⟨d', r⟩
  have hsuf : d' <:+ d := by
    have := trimWhile_suffix start d none
    rwa [htr] at this
  have hsort : sortedByTs d' := List.Pairwise.sublist hsuf.sublist hs
  have hhead := trimWhile_head start d none
  rw [htr] at hhead
  match r, d' with
  | some r, [] => simp
  | some r, hd :: tl =>
    rcases List.pairwise_cons.mp hsort with ⟨hhd, -⟩
    simp only
    split_ifs with hgt
    · intro x hx
      simp only [List.tail_cons, List.mem_cons] at hx
      rcases hx with hx | hx
      · exact hx ▸ le_of_lt hgt
      · exact le_trans (le_of_lt hgt) (hhd x hx)
    · intro x hx
      simp only [List.tail_cons] at hx
      have hhd2 : ¬ sampleTs hd < start := by
        have hlen : 2 ≤ (hd :: tl).length := by
          have := List.length_pos.mpr (List.ne_nil_of_mem hx)
          simp only [List.length_cons]
          omega
        exact hhead hlen hd (by simp)
      exact le_trans (not_lt.mp hhd2) (hhd x hx)
  | none, [] => simp
  | none, hd :: tl =>
    intro x hx
    rcases List.pairwise_cons.mp hsort with ⟨hhd, -⟩
    simp only [List.tail_cons] at hx
    have hhd2 : ¬ sampleTs hd < start := by
      have hlen : 2 ≤ (hd :: tl).length := by
        have := List.length_pos.mpr (List.ne_nil_of_mem hx)
        simp only [List.length_cons]
        omega
      exact hhead hlen hd (by simp)
    exact le_trans (not_lt.mp hhd2) (hhd x hx)

/-! ### Absence of a result is exactly the empty deque -/

theorem updateRaw_snd_none_iff (m : MovingAvg) (t : ℚ) :
    (m.updateRaw t).2 = none ↔ m.data = [] := by
  rw [MovingAvg.updateRaw]
  simp only
  split_ifs with h1 h2 h3
  · simp only [Option.some_ne_none, false_iff]
    intro hnil
    rw [hnil] at h1
    simp at h1
  · simp only [Option.some_ne_none, false_iff]
    intro hnil
    rw [hnil] at h2
    simp at h2
  · simp only [Option.some_ne_none, false_iff]
    intro hnil
    rw [hnil] at h2
    simp at h2
  · simp only [true_iff]
    cases hd : m.data with
    | nil => rfl
    | cons x tl =>
      rw [hd] at h1 h2
      simp only [List.length_cons] at h1 h2
      omega

/-- C8: after `reset()` the retained sequence is empty, `data_points()`
returns `0`, and the next `update` (evaluate) at any timestamp returns the
absent value, regardless of the prior state. -/
theorem C8_reset_clears (m : MovingAvg) (t : ℚ) :
    (m.reset).data = [] ∧ (m.reset).data_points = 0 ∧
      ((m.reset).update t).2 = AvgResult.nodata := by
  refine ⟨rfl, rfl, ?_⟩
  simp [MovingAvg.update, MovingAvg.updateRaw, MovingAvg.reset]

/-- In the rational model (where division is total), `update` returns the
absent value `nodata` exactly on the empty deque. -/
theorem update_nodata_iff_empty (m : MovingAvg) (t : ℚ) :
    ((m.update t).2 = AvgResult.nodata ↔ m.data = []) := by
  rw [MovingAvg.update]
  rcases hur : m.updateRaw t with ⟨m', v⟩
  have hiff := updateRaw_snd_none_iff m t
  rw [hur] at hiff
  match v, hiff with
  | none, hiff =>
    simpa using hiff.mp rfl
  | some v, hiff =>
    simp only at hiff ⊢
    split_ifs <;>
      simp only [AvgResult.ofFloat.injEq, reduceCtorEq, false_iff] <;>
      exact fun hnil => by simp [hnil] at hiff

/-- C5: when exactly one sample is retained, `update` (evaluate) returns
the value of that sample rounded per the configured precision, for any
evaluation timestamp, and never enters the duration-weighted path; in
particular `record(10.0, t0)` on a fresh averager returns `10.0`, as does
`evaluate(t0)` afterwards. -/
theorem C5_single_sample :
    (∀ (m : MovingAvg) (t v ts : ℚ), m.data = [(v, ts)] →
      (m.update t).1 = m ∧
      (m.update t).2 = (if 0 < m.precision then AvgResult.ofFloat (pyRound v m.precision)
        else AvgResult.ofInt (pyInt (pyRound v m.precision)))) ∧
    (((⟨10, 2, []⟩ : MovingAvg).update_value 10 0).2 = AvgResult.ofFloat 10 ∧
      ∀ t : ℚ, ((⟨10, 2, [(10, 0)]⟩ : MovingAvg).update t).2 = AvgResult.ofFloat 10) := by
  constructor
  · intro m t v ts h
    rw [MovingAvg.update, MovingAvg.updateRaw]
    simp [h, sampleValue]
  · constructor
    · simp [MovingAvg.update_value, MovingAvg.update, MovingAvg.updateRaw, sampleValue,
        pyRound, roundHalfEven]
      norm_num
    · intro t
      simp [MovingAvg.update, MovingAvg.updateRaw, sampleValue, pyRound, roundHalfEven]
      norm_num

theorem C5_single_sample_witness :
    ((⟨7, 1, [(3, 2)]⟩ : MovingAvg).update 5).2 = AvgResult.ofFloat 3 := by
  have h := (C5_single_sample.1 ⟨7, 1, [(3, 2)]⟩ 5 3 2 rfl).2
  rw [h]
  norm_num [pyRound, roundHalfEven]

/-! ### Idempotence of evaluation -/

theorem trimWhile_nopop (start : ℚ) (d : List Sample) (r : Option Sample)
    (h : ∀ x ∈ d.head?, ¬ sampleTs x < start) : trimWhile start d r = (d, r) := by
  match d with
  | [] => rfl
  | [x] => rfl
  | x :: y :: rest =>
    rw [trimWhile, if_neg (h x (by simp))]

theorem updateRaw_fields (m : MovingAvg) (t : ℚ) :
    ((m.updateRaw t).1.window = m.window) ∧ ((m.updateRaw t).1.precision = m.precision) := by
  rw [MovingAvg.updateRaw]
  simp only
  split_ifs <;> simp

theorem updateRaw_idem (m : MovingAvg) (t : ℚ) :
    (m.updateRaw t).1.updateRaw t = m.updateRaw t := by
  by_cases h1 : m.data.length = 1
  · have hfst : m.updateRaw t = (m, some (sampleValue m.data.headI)) := by
      rw [MovingAvg.updateRaw]
      simp [h1]
    rw [hfst]
    exact hfst
  · by_cases h2 : 1 < m.data.length
    · have hne : moveWindow (t - m.window) m.data ≠ [] :=
        moveWindow_ne_nil (t - m.window) m.data
          (by intro hnil; rw [hnil] at h2; simp at h2)
      by_cases h3 : (moveWindow (t - m.window) m.data).length = 1
      · have hfst : m.updateRaw t =
            (⟨m.window, m.precision, moveWindow (t - m.window) m.data⟩,
              some (sampleValue (moveWindow (t - m.window) m.data).headI)) := by
          rw [MovingAvg.updateRaw]
          simp [h1, h2, h3]
        rw [hfst, MovingAvg.updateRaw]
        simp [h3]
      · have hfst : m.updateRaw t =
            (⟨m.window, m.precision, moveWindow (t - m.window) m.data⟩,
              some (computeAvg t (t - sampleTs (moveWindow (t - m.window) m.data).headI)
                (moveWindow (t - m.window) m.data))) := by
          rw [MovingAvg.updateRaw]
          simp [h1, h2, h3]
        have hlen2 : 1 < (moveWindow (t - m.window) m.data).length := by
          have := List.length_pos.mpr hne
          omega
        have hmw : moveWindow (t - m.window) (moveWindow (t - m.window) m.data) =
            moveWindow (t - m.window) m.data := by
          rw [moveWindow, trimWhile_nopop (t - m.window) _ none
            (moveWindow_head_ok (t - m.window) m.data (by omega))]
        rw [hfst, MovingAvg.updateRaw]
        simp [h3, hlen2, hmw]
    · have hfst : m.updateRaw t = (m, none) := by
        rw [MovingAvg.updateRaw]
        simp [h1, h2]
      rw [hfst]
      exact hfst

/-- C7: evaluation is idempotent: calling `update` (evaluate) twice at the
same timestamp with no intervening `record` yields the same result both
times, and the second call leaves the retained sequence (indeed the whole
state) unchanged -- trimming is idempotent once stable. -/
theorem C7_evaluate_idempotent (m : MovingAvg) (t : ℚ) :
    ((m.update t).1.update t).2 = (m.update t).2 ∧
      ((m.update t).1.update t).1 = (m.update t).1 := by
  have hraw := updateRaw_idem m t
  have hprec := (updateRaw_fields m t).2
  rcases h1 : m.updateRaw t with ⟨m1, v⟩
  rw [h1] at hraw hprec
  cases v with
  | none =>
    have hu1 : m.update t = (m1, AvgResult.nodata) := by
      simp [MovingAvg.update, h1]
    have hu2 : m1.update t = (m1, AvgResult.nodata) := by
      simp [MovingAvg.update, hraw]
    rw [hu1, hu2]
    exact ⟨rfl, rfl⟩
  | some v =>
    have hu1 : m.update t =
        (m1, if 0 < m.precision then AvgResult.ofFloat (pyRound v m.precision)
          else AvgResult.ofInt (pyInt (pyRound v m.precision))) := by
      simp [MovingAvg.update, h1]
    have hu2 : m1.update t =
        (m1, if 0 < m1.precision then AvgResult.ofFloat (pyRound v m1.precision)
          else AvgResult.ofInt (pyInt (pyRound v m1.precision))) := by
      simp [MovingAvg.update, hraw]
    rw [hu1, hu2, hprec]
    exact ⟨rfl, rfl⟩

/-! ### The state after an update -/

theorem update_fst (m : MovingAvg) (t : ℚ) : (m.update t).1 = (m.updateRaw t).1 := by
  rw [MovingAvg.update]
  rcases m.updateRaw t with ⟨m', v⟩
  cases v <;> rfl

theorem updateRaw_data (m : MovingAvg) (t : ℚ) :
    (m.data.length ≤ 1 ∧ (m.updateRaw t).1 = m) ∨
      (1 < m.data.length ∧
        (m.updateRaw t).1 = ⟨m.window, m.precision, moveWindow (t - m.window) m.data⟩) := by
  rw [MovingAvg.updateRaw]
  simp only
  split_ifs with h1 h2 h3
  · exact Or.inl ⟨by omega, rfl⟩
  · exact Or.inr ⟨h2, rfl⟩
  · exact Or.inr ⟨h2, rfl⟩
  · exact Or.inl ⟨by omega, rfl⟩

/-- C9: after any `update` (evaluate) at time `t` on a deque satisfying the
documented non-decreasing-timestamp invariant, every retained sample except
possibly the first has timestamp at least `t - window`; moreover the deque
stays non-empty across `update` once it is non-empty, and is non-empty
after any `update_value` (record). -/
theorem C9_window_invariant (m : MovingAvg) (t : ℚ) (hs : sortedByTs m.data) :
    (∀ x ∈ ((m.update t).1.data).tail, t - m.window ≤ sampleTs x) ∧
      (m.data ≠ [] → (m.update t).1.data ≠ []) ∧
      (∀ v : ℚ, (m.update_value v t).1.data ≠ []) := by
  refine ⟨?_, ?_, ?_⟩
  · intro x hx
    rw [update_fst] at hx
    rcases updateRaw_data m t with ⟨hlen, hstate⟩ | ⟨hlen, hstate⟩
    · rw [hstate] at hx
      cases hd : m.data with
      | nil => rw [hd] at hx; simp at hx
      | cons a l =>
        cases hl : l with
        | nil => rw [hd, hl] at hx; simp at hx
        | cons b l2 => rw [hd, hl] at hlen; simp at hlen
    · rw [hstate] at hx
      exact moveWindow_tail_ge (t - m.window) m.data hs x hx
  · intro hne
    rw [update_fst]
    rcases updateRaw_data m t with ⟨hlen, hstate⟩ | ⟨hlen, hstate⟩
    · rw [hstate]; exact hne
    · rw [hstate]
      exact moveWindow_ne_nil (t - m.window) m.data hne
  · intro v
    rw [MovingAvg.update_value, update_fst]
    rcases updateRaw_data ⟨m.window, m.precision, m.data ++ [(v, t)]⟩ t with
      ⟨hlen, hstate⟩ | ⟨hlen, hstate⟩
    · rw [hstate]; simp
    · rw [hstate]
      exact moveWindow_ne_nil (t - m.window) (m.data ++ [(v, t)]) (by simp)

theorem C9_window_invariant_witness :
    (∀ x ∈ (((⟨10, 2, [(1, 0), (2, 5)]⟩ : MovingAvg).update 20).1.data).tail,
        (20 : ℚ) - 10 ≤ sampleTs x) ∧
      ([((1 : ℚ), (0 : ℚ)), (2, 5)] ≠ ([] : List Sample) →
        ((⟨10, 2, [(1, 0), (2, 5)]⟩ : MovingAvg).update 20).1.data ≠ []) ∧
      (∀ v : ℚ, ((⟨10, 2, [(1, 0), (2, 5)]⟩ : MovingAvg).update_value v 20).1.data ≠ []) :=
  C9_window_invariant ⟨10, 2, [(1, 0), (2, 5)]⟩ 20 (by decide)

/-! ### Characterizing the trimming loop by counting expired samples -/

/-- The number of samples the trimming loop removes: the count of leading
samples with timestamp strictly before `start`, but never the whole deque
(at least one sample always remains). -/
def trimCount (start : ℚ) (d : List Sample) : ℕ :=
  min (d.takeWhile (fun x => decide (sampleTs x < start))).length (d.length - 1)

/-- The window move of `MovingAvg.update`, restated the way the spec
describes it: drop the `trimCount` leading expired samples; if any sample
was dropped and the new oldest one is strictly after `start`, put the last
dropped value back at the front with its timestamp forced to `start`. -/
def specMove (start : ℚ) (d : List Sample) : List Sample :=
  let j := trimCount start d
  let kept := d.drop j
  if j = 0 then kept
  else
    match (d.drop (j - 1)).head?, kept.head? with
    | some r, some hd =>
      if start < sampleTs hd then (sampleValue r, start) :: kept else kept
    | _, _ => kept

theorem trimWhile_eq (start : ℚ) :
    ∀ (d : List Sample) (r : Option Sample),
      trimWhile start d r =
        (d.drop (trimCount start d),
          if trimCount start d = 0 then r else (d.drop (trimCount start d - 1)).head?)
  | [], r => by simp [trimWhile, trimCount]
  | [x], r => by simp [trimWhile, trimCount]
  | x :: y :: rest, r => by
    by_cases hx : sampleTs x < start
    · rw [trimWhile, if_pos hx, trimWhile_eq start (y :: rest) (some x)]
      have hj : trimCount start (x :: y :: rest) = trimCount start (y :: rest) + 1 := by
        rw [trimCount, trimCount, List.takeWhile_cons, if_pos (by simpa using hx)]
        simp only [List.length_cons]
        omega
      rw [hj]
      cases hj' : trimCount start (y :: rest) with
      | zero => simp
      | succ k => simp [List.drop_succ_cons]
    · rw [trimWhile, if_neg hx]
      have hj : trimCount start (x :: y :: rest) = 0 := by
        rw [trimCount, List.takeWhile_cons, if_neg (by simpa using hx)]
        simp
      rw [hj]
      simp

theorem moveWindow_eq_specMove (start : ℚ) (d : List Sample) :
    moveWindow start d = specMove start d := by
  rw [moveWindow, trimWhile_eq, specMove]
  by_cases hj : trimCount start d = 0
  · simp [hj]
  · have hj1 : trimCount start d ≤ d.length - 1 := Nat.min_le_right _ _
    have hlen : trimCount start d < d.length := by omega
    have hkept : d.drop (trimCount start d) ≠ [] := by
      intro hnil
      rw [List.drop_eq_nil_iff] at hnil
      omega
    have hrem : d.drop (trimCount start d - 1) ≠ [] := by
      intro hnil
      rw [List.drop_eq_nil_iff] at hnil
      omega
    rcases hk : d.drop (trimCount start d) with _ | ⟨hd, tl⟩
    · exact absurd hk hkept
    · rcases hr : (d.drop (trimCount start d - 1)).head? with _ | r
      · rw [List.head?_eq_none_iff] at hr
        exact absurd hr hrem
      · simp [hj, hk, hr]

/-- C2: when more than one sample is retained, `update` (evaluate) at time
`t` trims the deque exactly as the spec describes: it drops the leading
samples with timestamp strictly before `start = t - window` (never dropping
the last remaining one), and when at least one was dropped and the new
oldest sample is strictly after `start`, the last dropped value is
re-inserted at the front with timestamp `start`; in particular with
window 10 and samples at times 0, 5, 12, evaluating at 12 yields the deque
`[(value0, 2), (value1, 5), (value2, 12)]`. -/
theorem C2_window_trimming :
    (∀ (m : MovingAvg) (t : ℚ), 1 < m.data.length →
        (m.update t).1.data = specMove (t - m.window) m.data) ∧
      (∀ v0 v1 v2 : ℚ,
        ((⟨10, 2, [(v0, 0), (v1, 5), (v2, 12)]⟩ : MovingAvg).update 12).1.data
          = [(v0, 2), (v1, 5), (v2, 12)]) := by
  constructor
  · intro m t h
    rw [update_fst]
    rcases updateRaw_data m t with ⟨hlen, _⟩ | ⟨_, hstate⟩
    · omega
    · rw [hstate, ← moveWindow_eq_specMove]
  · intro v0 v1 v2
    simp [MovingAvg.update, MovingAvg.updateRaw, moveWindow, trimWhile, sampleTs, sampleValue]
    norm_num

theorem C2_window_trimming_witness :
    ((⟨10, 2, [(3, 0), (4, 5), (5, 12)]⟩ : MovingAvg).update 12).1.data =
      specMove (12 - 10) [((3 : ℚ), (0 : ℚ)), (4, 5), (5, 12)] :=
  C2_window_trimming.1 ⟨10, 2, [(3, 0), (4, 5), (5, 12)]⟩ 12 (by simp)

/-! ### The weighted average formula -/

/-- The accumulator exactly as the spec words it: sum, over consecutive
pairs `(prev, cur)`, of `prev.value * (cur.ts - prev.ts) / duration`, plus,
when the evaluation timestamp is strictly after the last sample, the tail
term `last.value * (timestamp - last.ts) / duration`. -/
def specAccum (timestamp duration : ℚ) (d : List Sample) : ℚ :=
  ((d.zip d.tail).map
      (fun pc => sampleValue pc.1 * (sampleTs pc.2 - sampleTs pc.1) / duration)).sum +
    (match d.getLast? with
     | some last =>
       if sampleTs last < timestamp then
         sampleValue last * (timestamp - sampleTs last) / duration
       else 0
     | none => 0)

theorem pairSum_eq_zip (dur : ℚ) :
    ∀ d : List Sample, pairSum dur d =
      ((d.zip d.tail).map
        (fun pc => sampleValue pc.1 * (sampleTs pc.2 - sampleTs pc.1) / dur)).sum
  | [] => by simp [pairSum]
  | [x] => by simp [pairSum]
  | x :: y :: rest => by
    rw [pairSum, pairSum_eq_zip dur (y :: rest)]
    simp [weighted]

theorem computeAvg_eq_specAccum (t dur : ℚ) (d : List Sample) :
    computeAvg t dur d = specAccum t dur d := by
  rw [computeAvg, specAccum, pairSum_eq_zip, tailTerm]
  rcases d.getLast? with _ | last <;> simp [weighted]

/-- C1: on a retained deque of at least two samples after trimming,
`update` (evaluate) computes exactly the time-weighted sum of the spec: over
consecutive pairs `(prev, cur)`, `prev.value` times the seconds between
their timestamps divided by `duration` (the seconds from the first
retained sample to the evaluation timestamp), plus, when the evaluation
timestamp is strictly after the last retained sample, the tail term for
the last value; in particular with window 10s, samples `(10, t0)` and
`(20, t0+5)`, evaluating at `t0+8` yields `13.75 = 55/4` before (and,
at precision 2, after) rounding. -/
theorem C1_time_weighted_average :
    (∀ (m : MovingAvg) (t : ℚ), 1 < m.data.length →
        1 < (moveWindow (t - m.window) m.data).length →
        (m.updateRaw t).2 =
          some (specAccum t (t - sampleTs (moveWindow (t - m.window) m.data).headI)
            (moveWindow (t - m.window) m.data))) ∧
      ((MovingAvg.updateRaw ⟨10, 2, [(10, 0), (20, 5)]⟩ 8).2 = some (55/4) ∧
        (MovingAvg.update ⟨10, 2, [(10, 0), (20, 5)]⟩ 8).2 = AvgResult.ofFloat (55/4)) := by
  refine ⟨?_, ?_, ?_⟩
  · intro m t h1 h2
    rw [MovingAvg.updateRaw]
    simp only
    split_ifs with hl1 hl2
    · omega
    · omega
    · rw [computeAvg_eq_specAccum]
  · simp [MovingAvg.updateRaw, moveWindow, trimWhile, computeAvg, pairSum, tailTerm,
      weighted, sampleValue, sampleTs, List.headI]
    norm_num
  · simp [MovingAvg.update, MovingAvg.updateRaw, moveWindow, trimWhile, computeAvg, pairSum,
      tailTerm, weighted, sampleValue, sampleTs, List.headI, pyRound, roundHalfEven]
    norm_num

theorem C1_time_weighted_average_witness :
    (MovingAvg.updateRaw ⟨10, 2, [(10, 0), (20, 5)]⟩ 8).2 =
      some (specAccum 8 (8 - sampleTs (moveWindow (8 - 10) [((10 : ℚ), (0 : ℚ)), (20, 5)]).headI)
        (moveWindow (8 - 10) [((10 : ℚ), (0 : ℚ)), (20, 5)])) :=
  C1_time_weighted_average.1 ⟨10, 2, [(10, 0), (20, 5)]⟩ 8 (by simp)
    (by norm_num [moveWindow, trimWhile, sampleTs])

/-! ### Rounding -/

theorem roundHalfEven_close (x : ℚ) : |((roundHalfEven x : ℤ) : ℚ) - x| ≤ 1/2 := by
  rw [roundHalfEven]
  have hf : (⌊x⌋ : ℚ) ≤ x := Int.floor_le x
  have hf1 : x < ⌊x⌋ + 1 := Int.lt_floor_add_one x
  split_ifs with h1 h2 h3 <;> rw [abs_le] <;> constructor <;> push_cast <;> linarith

theorem pyInt_intCast (n : ℤ) : pyInt ((n : ℤ) : ℚ) = n := by
  rw [pyInt, Rat.num_intCast, Rat.den_intCast]
  exact Int.tdiv_one n

theorem pyRound_mul_pow (x : ℚ) (p : ℤ) :
    pyRound x p * 10 ^ p = ((roundHalfEven (x * 10 ^ p) : ℤ) : ℚ) := by
  have h10 : (0 : ℚ) < 10 ^ p := zpow_pos (by norm_num) p
  rw [pyRound, div_mul_cancel₀ _ (ne_of_gt h10)]

theorem pyRound_close (x : ℚ) (p : ℤ) : |pyRound x p - x| ≤ 1 / (2 * 10 ^ p) := by
  have h10 : (0 : ℚ) < 10 ^ p := zpow_pos (by norm_num) p
  have hdiff : pyRound x p - x =
      (((roundHalfEven (x * 10 ^ p) : ℤ) : ℚ) - x * 10 ^ p) / 10 ^ p := by
    rw [pyRound]
    field_simp
    ring
  rw [hdiff, abs_div, abs_of_pos h10, div_le_div_iff₀ h10 (by positivity)]
  have hclose := roundHalfEven_close (x * 10 ^ p)
  calc |((roundHalfEven (x * 10 ^ p) : ℤ) : ℚ) - x * 10 ^ p| * (2 * 10 ^ p)
      ≤ (1/2) * (2 * 10 ^ p) := by
        apply mul_le_mul_of_nonneg_right hclose
        positivity
    _ = 1 * 10 ^ p := by ring

/-- C6: every non-absent result of `update` (evaluate/record) is rounded:
with precision `p > 0` the result is a float equal to the unrounded value
rounded to `p` decimal digits (a multiple of `10^-p` within half an ulp of
the exact value); with precision `0` the result is an integral value within
`1/2` of the exact value. -/
theorem C6_precision_rounding (m : MovingAvg) (t : ℚ) (v : ℚ)
    (h : (m.updateRaw t).2 = some v) :
    (0 < m.precision →
      (m.update t).2 = AvgResult.ofFloat (pyRound v m.precision) ∧
      (∃ n : ℤ, pyRound v m.precision * 10 ^ m.precision = (n : ℚ)) ∧
      |pyRound v m.precision - v| ≤ 1 / (2 * 10 ^ m.precision)) ∧
    (m.precision = 0 →
      (m.update t).2 = AvgResult.ofInt (roundHalfEven v) ∧
      |((roundHalfEven v : ℤ) : ℚ) - v| ≤ 1/2) := by
  rcases hur : m.updateRaw t with ⟨m', v'⟩
  rw [hur] at h
  simp only at h
  cases v' with
  | none => exact absurd h (by simp)
  | some w =>
    have hw : w = v := by simpa using h
    subst hw
    have hupd : m.update t =
        (m', if 0 < m.precision then AvgResult.ofFloat (pyRound w m.precision)
          else AvgResult.ofInt (pyInt (pyRound w m.precision))) := by
      simp [MovingAvg.update, hur]
    constructor
    · intro hp
      rw [hupd]
      refine ⟨by simp [hp], ⟨roundHalfEven (w * 10 ^ m.precision), pyRound_mul_pow w m.precision⟩,
        pyRound_close w m.precision⟩
    · intro hp
      have hzero : pyRound w 0 = ((roundHalfEven w : ℤ) : ℚ) := by
        rw [pyRound, zpow_zero, mul_one, div_one]
      rw [hupd]
      constructor
      · simp only [hp, lt_irrefl, if_false]
        rw [hzero, pyInt_intCast]

      · exact roundHalfEven_close w

theorem C6_precision_rounding_witness :
    ((⟨10, 2, [(10, 0)]⟩ : MovingAvg).update 5).2 = AvgResult.ofFloat (pyRound 10 2) :=
  ((C6_precision_rounding ⟨10, 2, [(10, 0)]⟩ 5 10
    (by simp [MovingAvg.updateRaw, sampleValue])).1 (by norm_num)).1

/-! ### The accumulator stays between the extreme sample values -/

theorem computeAvg_cons_cons (t dur : ℚ) (x y : Sample) (rest : List Sample) :
    computeAvg t dur (x :: y :: rest) =
      weighted x (sampleTs y) dur + computeAvg t dur (y :: rest) := by
  rw [computeAvg, computeAvg, pairSum, tailTerm, tailTerm, List.getLast?_cons_cons]
  ring

theorem computeAvg_upper (t dur M : ℚ) (hdur : 0 < dur) :
    ∀ d : List Sample, sortedByTs d →
      (∀ x ∈ d, sampleValue x ≤ M) → (∀ x ∈ d, sampleTs x ≤ t) →
      d ≠ [] → computeAvg t dur d ≤ M * (t - sampleTs d.headI) / dur
  | [], _, _, _, hne => absurd rfl hne
  | [x], _, hval, hts, _ => by
    rw [computeAvg, show pairSum dur [x] = 0 from rfl, tailTerm]
    simp only [List.getLast?_singleton, List.headI_cons]
    have hxt : sampleTs x ≤ t := hts x (by simp)
    have hvx : sampleValue x ≤ M := hval x (by simp)
    split_ifs with hlt
    · rw [weighted, zero_add]
      have hfac : (0 : ℚ) ≤ t - sampleTs x := by linarith
      gcongr
    · have hxe : sampleTs x = t := le_antisymm hxt (not_lt.mp hlt)
      rw [hxe]
      simp
  | x :: y :: rest, hs, hval, hts, _ => by
    rw [computeAvg_cons_cons]
    have hxy : sampleTs x ≤ sampleTs y := (List.pairwise_cons.mp hs).1 y (by simp)
    have hIH := computeAvg_upper t dur M hdur (y :: rest)
      (List.pairwise_cons.mp hs).2
      (fun z hz => hval z (List.mem_cons_of_mem x hz))
      (fun z hz => hts z (List.mem_cons_of_mem x hz))
      (by simp)
    have hvx : sampleValue x ≤ M := hval x (by simp)
    have hw : weighted x (sampleTs y) dur ≤ M * (sampleTs y - sampleTs x) / dur := by
      rw [weighted]
      have hfac : (0 : ℚ) ≤ sampleTs y - sampleTs x := by linarith
      gcongr
    simp only [List.headI_cons] at hIH ⊢
    calc weighted x (sampleTs y) dur + computeAvg t dur (y :: rest)
        ≤ M * (sampleTs y - sampleTs x) / dur + M * (t - sampleTs y) / dur :=
          add_le_add hw hIH
      _ = M * (t - sampleTs x) / dur := by ring

theorem computeAvg_lower (t dur lb : ℚ) (hdur : 0 < dur) :
    ∀ d : List Sample, sortedByTs d →
      (∀ x ∈ d, lb ≤ sampleValue x) → (∀ x ∈ d, sampleTs x ≤ t) →
      d ≠ [] → lb * (t - sampleTs d.headI) / dur ≤ computeAvg t dur d
  | [], _, _, _, hne => absurd rfl hne
  | [x], _, hval, hts, _ => by
    rw [computeAvg, show pairSum dur [x] = 0 from rfl, tailTerm]
    simp only [List.getLast?_singleton, List.headI_cons]
    have hxt : sampleTs x ≤ t := hts x (by simp)
    have hvx : lb ≤ sampleValue x := hval x (by simp)
    split_ifs with hlt
    · rw [weighted, zero_add]
      have hfac : (0 : ℚ) ≤ t - sampleTs x := by linarith
      gcongr
    · have hxe : sampleTs x = t := le_antisymm hxt (not_lt.mp hlt)
      rw [hxe]
      simp
  | x :: y :: rest, hs, hval, hts, _ => by
    rw [computeAvg_cons_cons]
    have hxy : sampleTs x ≤ sampleTs y := (List.pairwise_cons.mp hs).1 y (by simp)
    have hIH := computeAvg_lower t dur lb hdur (y :: rest)
      (List.pairwise_cons.mp hs).2
      (fun z hz => hval z (List.mem_cons_of_mem x hz))
      (fun z hz => hts z (List.mem_cons_of_mem x hz))
      (by simp)
    have hvx : lb ≤ sampleValue x := hval x (by simp)
    have hw : lb * (sampleTs y - sampleTs x) / dur ≤ weighted x (sampleTs y) dur := by
      rw [weighted]
      have hfac : (0 : ℚ) ≤ sampleTs y - sampleTs x := by linarith
      gcongr
    simp only [List.headI_cons] at hIH ⊢
    calc lb * (t - sampleTs x) / dur
        = lb * (sampleTs y - sampleTs x) / dur + lb * (t - sampleTs y) / dur := by ring
      _ ≤ weighted x (sampleTs y) dur + computeAvg t dur (y :: rest) :=
          add_le_add hw hIH

theorem sorted_ts_le_getLast :
    ∀ d : List Sample, sortedByTs d → ∀ l ∈ d.getLast?, ∀ x ∈ d, sampleTs x ≤ sampleTs l
  | [], _, l, hl, x, hx => by simp at hx
  | [a], _, l, hl, x, hx => by
    simp only [List.getLast?_singleton, Option.mem_def, Option.some.injEq] at hl
    simp only [List.mem_singleton] at hx
    subst hl hx
    exact le_refl _
  | a :: b :: rest, hs, l, hl, x, hx => by
    rw [List.getLast?_cons_cons] at hl
    have hIH := sorted_ts_le_getLast (b :: rest) (List.pairwise_cons.mp hs).2 l hl
    rcases List.mem_cons.mp hx with hx | hx
    · subst hx
      exact le_trans ((List.pairwise_cons.mp hs).1 b (by simp)) (hIH b (by simp))
    · exact hIH x hx

/-- C10: evaluating on an already-trimmed deque of two or more samples with
non-decreasing timestamps, with the evaluation timestamp strictly after the
first retained sample and not earlier than the last, produces (before
rounding) a value bounded by every upper bound and every lower bound of the
retained sample values: the accumulator is a convex combination of the
values and so lies between their minimum and maximum. -/
theorem C10_convex_combination (m : MovingAvg) (t : ℚ)
    (hs : sortedByTs m.data) (hlen : 1 < m.data.length)
    (hstable : moveWindow (t - m.window) m.data = m.data)
    (hfirst : sampleTs m.data.headI < t)
    (hlast : ∀ l ∈ m.data.getLast?, sampleTs l ≤ t) :
    ∃ v, (m.updateRaw t).2 = some v ∧
      (∀ M, (∀ x ∈ m.data, sampleValue x ≤ M) → v ≤ M) ∧
      (∀ lb, (∀ x ∈ m.data, lb ≤ sampleValue x) → lb ≤ v) := by
  have hne : m.data ≠ [] := by
    intro h
    rw [h] at hlen
    simp at hlen
  have hts : ∀ x ∈ m.data, sampleTs x ≤ t := by
    intro x hx
    have hgl := List.getLast?_eq_getLast_of_ne_nil hne
    exact le_trans
      (sorted_ts_le_getLast m.data hs (m.data.getLast hne) (by rw [hgl]; rfl) x hx)
      (hlast (m.data.getLast hne) (by rw [hgl]; rfl))
  have hdur : 0 < t - sampleTs m.data.headI := by linarith
  refine ⟨computeAvg t (t - sampleTs m.data.headI) m.data, ?_, ?_, ?_⟩
  · have hne1 : ¬ m.data.length = 1 := by omega
    rw [MovingAvg.updateRaw]
    simp [hne1, hlen, hstable]
  · intro M hM
    exact le_of_le_of_eq
      (computeAvg_upper t (t - sampleTs m.data.headI) M hdur m.data hs hM hts hne)
      (mul_div_cancel_right₀ M (ne_of_gt hdur))
  · intro lb hlb
    exact le_of_eq_of_le
      (mul_div_cancel_right₀ lb (ne_of_gt hdur)).symm
      (computeAvg_lower t (t - sampleTs m.data.headI) lb hdur m.data hs hlb hts hne)

theorem C10_convex_combination_witness :
    ∃ v, ((⟨10, 2, [(10, 0), (20, 5)]⟩ : MovingAvg).updateRaw 8).2 = some v ∧
      (∀ M, (∀ x ∈ [((10 : ℚ), (0 : ℚ)), (20, 5)], sampleValue x ≤ M) → v ≤ M) ∧
      (∀ lb, (∀ x ∈ [((10 : ℚ), (0 : ℚ)), (20, 5)], lb ≤ sampleValue x) → lb ≤ v) :=
  C10_convex_combination ⟨10, 2, [(10, 0), (20, 5)]⟩ 8 (by decide) (by decide)
    (by norm_num [moveWindow, trimWhile, sampleTs]) (by decide)
    (by decide)

/-! ### The divisor of the weighting step -/

/-- The value `duration` that `MovingAvg.update` passes as the divisor to
`_weighted` when it reaches the weighting loop (lines 247-262), and `none`
when that loop is not reached (0 or 1 samples before trimming, or exactly 1
after trimming). In Python, reaching the loop with `duration = 0.0` raises
`ZeroDivisionError` at `_value(cur) * delta / duration`. -/
def divisorAtWeighting (m : MovingAvg) (t : ℚ) : Option ℚ :=
  if m.data.length ≤ 1 then none
  else
    let d := moveWindow (t - m.window) m.data
    if d.length = 1 then none
    else some (t - sampleTs d.headI)

/-- The divisor reached inside `update_value` (record): append the sample,
then probe `update` at the timestamp of the new sample. -/
def recordDivisor (m : MovingAvg) (val t : ℚ) : Option ℚ :=
  divisorAtWeighting ⟨m.window, m.precision, m.data ++ [(val, t)]⟩ t

/-- C3: the failing input for the no-crash claim. On a fresh averager with
window 10 and precision 2, `record(10.0, t0)` followed by `record(20.0, t0)`
-- non-decreasing timestamps, as the claim allows -- reaches the weighting
loop of the second record with divisor `duration = 0`: the deque at that
point is `[(10, t0), (20, t0)]` and the duration from its first sample to
the evaluation timestamp `t0` is `0`, so Python evaluates `10.0 * 0.0 / 0.0`
and raises `ZeroDivisionError`, contradicting the claim that the division
by `duration` in the weighting step never divides by zero. -/
theorem C3_zero_duration_divisor :
    (((⟨10, 2, []⟩ : MovingAvg).update_value 10 0).1.update_value 20 0).1.data
        = [(10, 0), (20, 0)] ∧
      recordDivisor ((⟨10, 2, []⟩ : MovingAvg).update_value 10 0).1 20 0 = some 0 := by
  constructor
  · simp [MovingAvg.update_value, MovingAvg.update, MovingAvg.updateRaw, moveWindow,
      trimWhile, sampleTs, sampleValue]
    norm_num [moveWindow, trimWhile, sampleTs]
  · simp [recordDivisor, divisorAtWeighting, MovingAvg.update_value, MovingAvg.update,
      MovingAvg.updateRaw, moveWindow, trimWhile, sampleTs, sampleValue]
    norm_num [moveWindow, trimWhile, sampleTs]

/-- C4: the failing input for the claim that every non-empty retained
sequence returns a number. The non-empty deque `[(10, t0), (20, t0)]`
(reached by `record(10.0, t0); record(20.0, t0)`) evaluated at `t0` makes
the code enter the weighting loop with divisor `duration = 0`, so Python
raises `ZeroDivisionError` at `_weighted` and returns nothing at all --
neither a number nor the absent value. The other half of the claim does
hold: the absent value is returned exactly on the empty deque, so an
averager with zero recorded samples never reports a numeric `0.0`. -/
theorem C4_nonempty_crash :
    ((⟨10, 2, [(10, 0), (20, 0)]⟩ : MovingAvg).data ≠ [] ∧
      divisorAtWeighting ⟨10, 2, [(10, 0), (20, 0)]⟩ 0 = some 0) ∧
    (∀ (m : MovingAvg) (t : ℚ), ((m.update t).2 = AvgResult.nodata ↔ m.data = [])) := by
  refine ⟨⟨by simp, ?_⟩, update_nodata_iff_empty⟩
  simp [divisorAtWeighting, moveWindow, trimWhile, sampleTs]
  norm_num [moveWindow, trimWhile, sampleTs]
